import Mathlib

/-!
Verification of the metric-computation engine of a music-redundancy analyzer:
order-0 Shannon entropy, order-k empirical conditional (Markov) entropy,
predictability index, sliding-window entropies, and Lempel-Ziv (LZ76)
complexity with a normalized variant.  Shallow embedding: Python lists become
Lean lists, Python ints become ℤ, floats become ℝ, and the raised ValueError
becomes an Except.error value.
-/

namespace MusicEntropy

open Real

variable {α : Type} [DecidableEq α] [Inhabited α]

/-- Order-0 Shannon entropy in bits.
Mirrors shannon_entropy: empty guard, then sum over the distinct symbols
(Counter keys) of -p * log2 p with p = count / len. -/
noncomputable def shannon_entropy (l : List α) : ℝ :=
  if l = [] then 0
  else ∑ x ∈ l.toFinset,
    -(((l.count x : ℝ) / (l.length : ℝ)) * Real.logb 2 ((l.count x : ℝ) / (l.length : ℝ)))

/-- The successor list `transitions[c]` of a context `c`: for each start index
`i < n - k` whose context window `l[i : i+k]` equals `c`, the symbol `l[i+k]`. -/
def succsOf (l : List α) (k : ℕ) (c : List α) : List α :=
  (((List.range (l.length - k)).filter fun i => decide ((l.drop i).take k = c)).map
    fun i => l.getD (i + k) default)

/-- The set of distinct contexts (keys of the transitions defaultdict). -/
def contextsOf (l : List α) (k : ℕ) : Finset (List α) :=
  ((List.range (l.length - k)).map fun i => (l.drop i).take k).toFinset

/-- Conditional entropy estimate using a Markov model of order k.
Mirrors markov_entropy: k ≤ 0 delegates to shannon_entropy; n ≤ k returns 0;
otherwise the weighted average, over distinct contexts, of the Shannon entropy
of the successor list, weighted by (number of occurrences of context)/(n-k). -/
noncomputable def markov_entropy (l : List α) (order_k : ℤ) : ℝ :=
  if order_k ≤ 0 then shannon_entropy l
  else if (l.length : ℤ) ≤ order_k then 0
  else
    ∑ c ∈ contextsOf l order_k.toNat,
      (((succsOf l order_k.toNat c).length : ℝ) / ((l.length - order_k.toNat : ℕ) : ℝ)) *
        shannon_entropy (succsOf l order_k.toNat c)

/-- IP = 1 - (H* / Hmax), clamped to [0,1]; 0 when hmax ≤ 0.
Mirrors predictability_index. -/
noncomputable def predictability_index (h_star_eff h_max : ℝ) : ℝ :=
  if h_max ≤ 0 then 0
  else min 1 (max 0 (1 - h_star_eff / h_max))

/-- H0 and Hk for sliding windows.  Mirrors sliding_window_entropies:
raises (Except.error) when window_size ≤ 0 or step ≤ 0; otherwise walks the
start indices range(0, n, step), skips empty windows, and appends
(shannon_entropy window, markov_entropy window order_k) for each non-empty
window, in traversal order. -/
noncomputable def sliding_window_entropies (l : List α) (window_size step order_k : ℤ) :
    Except String (List (ℝ × ℝ)) :=
  if window_size ≤ 0 ∨ step ≤ 0 then
    Except.error "window_size and step must be positive integers."
  else
    Except.ok ((List.range' 0 ((l.length + step.toNat - 1) / step.toNat) step.toNat).foldl
      (fun results start =>
        if (l.drop start).take window_size.toNat = [] then results
        else results ++ [(shannon_entropy ((l.drop start).take window_size.toNat),
          markov_entropy ((l.drop start).take window_size.toNat) order_k)]) [])

/-- Binary coercion of _to_binary_string: value > 0 becomes '1' (true),
anything else becomes '0' (false). -/
def to_binary_string (seq : List ℤ) : List Bool :=
  seq.map fun v => decide (0 < v)

/-- One run of the LZ76 while-True loop, with explicit fuel (each loop
iteration consumes one unit; `none` means the fuel ran out).  State: parse
counter c, scan cursor i, candidate match length k, parsed-prefix boundary l. -/
def lzRun (s : List Bool) : ℕ → ℕ → ℕ → ℕ → ℕ → Option ℕ
  | 0, _, _, _, _ => none
  | fuel + 1, c, i, k, l =>
    if s.length < l + k then some (c + 1)
    else if s.getD (i + k - 1) false = s.getD (l + k - 1) false then
      lzRun s fuel c i (k + 1) l
    else if i + 1 = l then
      if s.length ≤ l + k then some (c + 1)
      else lzRun s fuel (c + 1) 0 1 (l + k)
    else lzRun s fuel c (i + 1) k l

/-- Fuel bound sufficient for every run of the LZ76 loop on a string of
length n (proved below). -/
def lzFuel (n : ℕ) : ℕ := (n + 2) * (2 * n + 4)

/-- Lempel-Ziv complexity (LZ76) for a binary sequence.
Mirrors lempel_ziv_complexity: 0 for the empty string, 1 for a single symbol,
otherwise the loop starting from c = 1, i = 0, k = 1, l = 1. -/
def lempel_ziv_complexity (seq : List ℤ) : ℕ :=
  let s := to_binary_string seq
  let n := s.length
  if n = 0 then 0
  else if n = 1 then 1
  else (lzRun s (lzFuel n) 1 0 1 1).getD 0

/-- Normalized LZC: c(n) * log2(n) / n, capped at 1.0; 0.0 for empty input.
Mirrors normalized_lzc. -/
noncomputable def normalized_lzc (seq : List ℤ) : ℝ :=
  if seq.length = 0 then 0
  else min 1 (((lempel_ziv_complexity seq : ℝ) * Real.logb 2 (seq.length : ℝ)) /
    (seq.length : ℝ))

/-- Decrease measure for the LZ76 loop: lexicographic ranking of the state
(i, k, l) flattened into a single natural number. -/
def lzMeasure (n i k l : ℕ) : ℕ := (n + 1 - l) * (2 * n + 4) + (n + 1 - k) + (l - i)

/-- The LZ76 loop returns within any fuel exceeding the measure of its state,
provided the loop invariant i < l, 1 ≤ k holds (it does at entry and is
preserved by every iteration). -/
theorem lzRun_isSome (s : List Bool) :
    ∀ fuel c i k l, i < l → 1 ≤ k → lzMeasure s.length i k l < fuel →
      ∃ v, lzRun s fuel c i k l = some v := by
  intro fuel
  induction fuel with
  | zero => intro c i k l _ _ hm; omega
  | succ f ih =>
    intro c i k l hil hk hm
    rw [lzRun]
    by_cases h1 : s.length < l + k
    · simp [h1]
    · simp only [h1, if_false]
      by_cases h2 : s.getD (i + k - 1) false = s.getD (l + k - 1) false
      · simp only [h2, if_true]
        apply ih c i (k + 1) l hil (by omega)
        have hlk : l + k ≤ s.length := by omega
        unfold lzMeasure at hm ⊢
        generalize (s.length + 1 - l) * (2 * s.length + 4) = A at hm ⊢
        omega
      · simp only [h2, if_false]
        by_cases h3 : i + 1 = l
        · simp only [h3, if_true]
          by_cases h4 : s.length ≤ l + k
          · simp [h4]
          · simp only [h4, if_false]
            apply ih (c + 1) 0 1 (l + k) (by omega) le_rfl
            have hlk : l + k < s.length := by omega
            unfold lzMeasure at hm ⊢
            have key : s.length + 1 - l = (s.length + 1 - (l + k)) + k := by omega
            rw [key, Nat.add_mul] at hm
            have hkP : 2 * s.length + 4 ≤ k * (2 * s.length + 4) :=
              Nat.le_mul_of_pos_left _ hk
            generalize hB : (s.length + 1 - (l + k)) * (2 * s.length + 4) = B at hm ⊢
            generalize hKP : k * (2 * s.length + 4) = KP at hm hkP
            omega
        · simp only [h3, if_false]
          apply ih c (i + 1) k l (by omega) hk
          unfold lzMeasure at hm ⊢
          generalize (s.length + 1 - l) * (2 * s.length + 4) = A at hm ⊢
          omega

/-- The fuel bound lzFuel n dominates the measure of the loop entry state. -/
theorem lzMeasure_init_lt (n : ℕ) : lzMeasure n 0 1 1 < lzFuel n := by
  unfold lzMeasure lzFuel
  have h : (n + 2) * (2 * n + 4) = n * (2 * n + 4) + 2 * (2 * n + 4) := by ring
  have h2 : n + 1 - 1 = n := by omega
  rw [h, h2]
  generalize n * (2 * n + 4) = A
  omega

/-- The binary coercion preserves length. -/
theorem to_binary_string_length (seq : List ℤ) :
    (to_binary_string seq).length = seq.length := by
  simp [to_binary_string]

/-- Claim C9: every core function is total; in particular the
lempel_ziv_complexity parsing loop over the cursors (i, k, l) terminates for
every finite input sequence and returns a value, which is the value
lempel_ziv_complexity returns (after the 0- and 1-length guards). -/
theorem lz_loop_terminates (seq : List ℤ) :
    ∃ v, lzRun (to_binary_string seq) (lzFuel seq.length) 1 0 1 1 = some v ∧
      lempel_ziv_complexity seq =
        if seq.length = 0 then 0 else if seq.length = 1 then 1 else v := by
  obtain ⟨v, hv⟩ := lzRun_isSome (to_binary_string seq) (lzFuel (to_binary_string seq).length)
    1 0 1 1 (by omega) le_rfl (lzMeasure_init_lt _)
  rw [to_binary_string_length] at hv
  refine ⟨v, hv, ?_⟩
  simp only [lempel_ziv_complexity, to_binary_string_length]
  split_ifs with h0 h1
  · rfl
  · rfl
  · rw [hv]
    rfl

/-- Claim C4: lempel_ziv_complexity always returns a non-negative integer:
0 for the empty sequence and 1 for every single-element sequence. -/
theorem lzc_base_cases :
    lempel_ziv_complexity [] = 0 ∧ (∀ x : ℤ, lempel_ziv_complexity [x] = 1) ∧
      ∀ seq : List ℤ, 0 ≤ lempel_ziv_complexity seq := by
  refine ⟨rfl, fun x => ?_, fun seq => Nat.zero_le _⟩
  simp [lempel_ziv_complexity, to_binary_string]

/-- Claim C8: on the periodic sequence [0,1]*16 and the irregular sequence
[0,1,1,0,1,0,0,1]*4 (both length 32), the irregular one has strictly greater
LZ76 complexity. -/
theorem lzc_periodic_lt_irregular :
    lempel_ziv_complexity
        [0, 1, 0, 1, 0, 1, 0, 1, 0, 1, 0, 1, 0, 1, 0, 1,
         0, 1, 0, 1, 0, 1, 0, 1, 0, 1, 0, 1, 0, 1, 0, 1] <
      lempel_ziv_complexity
        [0, 1, 1, 0, 1, 0, 0, 1, 0, 1, 1, 0, 1, 0, 0, 1,
         0, 1, 1, 0, 1, 0, 0, 1, 0, 1, 1, 0, 1, 0, 0, 1] := by
  decide

/-- Claim C7: markov_entropy equals shannon_entropy whenever k ≤ 0, and
equals 0 whenever k > 0 and len(seq) ≤ k. -/
theorem markov_degenerate (l : List α) (k : ℤ) :
    (k ≤ 0 → markov_entropy l k = shannon_entropy l) ∧
    (0 < k → (l.length : ℤ) ≤ k → markov_entropy l k = 0) := by
  constructor
  · intro h
    unfold markov_entropy
    rw [if_pos h]
  · intro h1 h2
    unfold markov_entropy
    rw [if_neg (not_le.mpr h1), if_pos h2]

/-- Witness for C7 at concrete inputs. -/
theorem markov_degenerate_witness :
    markov_entropy ([1, 2] : List ℕ) 0 = shannon_entropy [1, 2] ∧
      markov_entropy ([1, 2] : List ℕ) 5 = 0 :=
  ⟨(markov_degenerate [1, 2] 0).1 le_rfl,
   (markov_degenerate [1, 2] 5).2 (by norm_num) (by norm_num)⟩

/-- Claim C6: predictability_index returns 0 when hmax ≤ 0, otherwise
1 - hstar/hmax clamped to [0,1]; the result always lies in [0,1]. -/
theorem predictability_index_spec (h_star h_max : ℝ) :
    (h_max ≤ 0 → predictability_index h_star h_max = 0) ∧
    (0 < h_max →
      predictability_index h_star h_max = min 1 (max 0 (1 - h_star / h_max))) ∧
    0 ≤ predictability_index h_star h_max ∧ predictability_index h_star h_max ≤ 1 := by
  unfold predictability_index
  refine ⟨fun h => if_pos h, fun h => if_neg (not_le.mpr h), ?_, ?_⟩
  · split_ifs with h
    · exact le_refl 0
    · exact le_min zero_le_one (le_max_left 0 _)
  · split_ifs with h
    · exact zero_le_one
    · exact min_le_left _ _

/-- Witness for C6 at concrete inputs. -/
theorem predictability_index_spec_witness :
    predictability_index 1 0 = 0 ∧
      predictability_index 1 2 = min 1 (max 0 (1 - 1 / 2)) ∧
      0 ≤ predictability_index 3 2 ∧ predictability_index 3 2 ≤ 1 :=
  ⟨(predictability_index_spec 1 0).1 le_rfl,
   (predictability_index_spec 1 2).2.1 (by norm_num),
   (predictability_index_spec 3 2).2.2.1,
   (predictability_index_spec 3 2).2.2.2⟩

/-- Claim C2: sliding_window_entropies fails (with the InvalidArgument
condition) exactly when window_size ≤ 0 or step ≤ 0, and returns normally
for every positive window_size and step on every input sequence. -/
theorem swe_error_iff (l : List α) (w s k : ℤ) :
    ((∃ e, sliding_window_entropies l w s k = Except.error e) ↔ w ≤ 0 ∨ s ≤ 0) ∧
    ((w ≤ 0 ∨ s ≤ 0) ∨ ∃ res, sliding_window_entropies l w s k = Except.ok res) := by
  by_cases h : w ≤ 0 ∨ s ≤ 0
  · exact ⟨by simp [sliding_window_entropies, h], Or.inl h⟩
  · refine ⟨by simp [sliding_window_entropies, h], Or.inr ?_⟩
    unfold sliding_window_entropies
    rw [if_neg h]
    exact ⟨_, rfl⟩

/-- Appending-fold form of the sliding-window loop rewritten as a filterMap:
the loop appends one pair per start index whose window is non-empty. -/
theorem swe_foldl_eq_filterMap (l : List α) (w k : ℤ) :
    ∀ (L : List ℕ) (acc : List (ℝ × ℝ)),
      L.foldl (fun results start =>
        if (l.drop start).take w.toNat = [] then results
        else results ++ [(shannon_entropy ((l.drop start).take w.toNat),
          markov_entropy ((l.drop start).take w.toNat) k)]) acc =
      acc ++ L.filterMap (fun start =>
        if (l.drop start).take w.toNat = [] then none
        else some (shannon_entropy ((l.drop start).take w.toNat),
          markov_entropy ((l.drop start).take w.toNat) k)) := by
  intro L
  induction L with
  | nil => intro acc; simp
  | cons a L ih =>
    intro acc
    by_cases h : (l.drop a).take w.toNat = []
    · simp only [List.foldl_cons, List.filterMap_cons, h, if_pos rfl, if_true, ih]
    · simp only [List.foldl_cons, List.filterMap_cons, h, if_false, ih,
        List.cons_append, List.append_assoc]
      rfl

/-- range' with a stride is the stride-multiples of range. -/
theorem range'_stride_eq_map (st : ℕ) :
    ∀ m : ℕ, List.range' 0 m st = (List.range m).map (· * st) := by
  intro m
  induction m with
  | zero => simp
  | succ m ih =>
    rw [List.range'_concat, List.range_succ, List.map_append, ih]
    simp [Nat.mul_comm]

/-- The successful result of sliding_window_entropies, described window by
window over the start indices 0, step, 2·step, …. -/
theorem swe_ok_eq (l : List α) (w s k : ℤ) (hw : 0 < w) (hs : 0 < s) :
    sliding_window_entropies l w s k = Except.ok
      ((List.range ((l.length + s.toNat - 1) / s.toNat)).filterMap (fun j =>
        if (l.drop (j * s.toNat)).take w.toNat = [] then none
        else some (shannon_entropy ((l.drop (j * s.toNat)).take w.toNat),
          markov_entropy ((l.drop (j * s.toNat)).take w.toNat) k))) := by
  unfold sliding_window_entropies
  rw [if_neg (by push_neg; omega)]
  rw [swe_foldl_eq_filterMap, List.nil_append, range'_stride_eq_map, List.filterMap_map]
  rfl

/-- Claim C3: for positive window_size and step, sliding_window_entropies
returns, in traversal order, the pair (shannon_entropy w, markov_entropy w k)
for each non-empty window w = seq[j·step : j·step + window_size], skipping
empty windows; a final shorter window is emitted. -/
theorem swe_windows (l : List α) (w s k : ℤ) (hw : 0 < w) (hs : 0 < s) :
    sliding_window_entropies l w s k = Except.ok
      ((List.range ((l.length + s.toNat - 1) / s.toNat)).filterMap (fun j =>
        if (l.drop (j * s.toNat)).take w.toNat = [] then none
        else some (shannon_entropy ((l.drop (j * s.toNat)).take w.toNat),
          markov_entropy ((l.drop (j * s.toNat)).take w.toNat) k))) :=
  swe_ok_eq l w s k hw hs

/-- Witness for C3 at a concrete input. -/
theorem swe_windows_witness :
    (0 : ℤ) < 2 ∧ sliding_window_entropies ([0, 1, 1] : List ℕ) 2 2 1 = Except.ok
      ((List.range ((3 + (2 : ℤ).toNat - 1) / (2 : ℤ).toNat)).filterMap (fun j =>
        if (([0, 1, 1] : List ℕ).drop (j * (2 : ℤ).toNat)).take (2 : ℤ).toNat = [] then none
        else some
          (shannon_entropy ((([0, 1, 1] : List ℕ).drop (j * (2 : ℤ).toNat)).take (2 : ℤ).toNat),
            markov_entropy ((([0, 1, 1] : List ℕ).drop (j * (2 : ℤ).toNat)).take (2 : ℤ).toNat)
              1))) :=
  ⟨by norm_num, swe_windows [0, 1, 1] 2 2 1 (by norm_num) (by norm_num)⟩

/-- A start index drawn from range ⌈n/st⌉ lies strictly below n. -/
theorem start_lt_of_lt_ceil (n st j : ℕ) (hst : 0 < st) (hj : j < (n + st - 1) / st) :
    j * st < n := by
  rcases Nat.eq_zero_or_pos n with h | h
  · subst h
    have h0 : (0 + st - 1) / st = 0 := Nat.div_eq_of_lt (by omega)
    omega
  · have h1 : j + 1 ≤ (n + st - 1) / st := hj
    have h2 : (j + 1) * st ≤ n + st - 1 := (Nat.le_div_iff_mul_le hst).mp h1
    have h3 : (j + 1) * st = j * st + st := by ring
    rw [h3] at h2
    generalize j * st = J at h2 ⊢
    omega

/-- Claim C10: for positive window_size and step the empty-window skip branch
never fires: the result is one pair per start index, exactly ⌈n/step⌉ pairs;
the empty sequence yields the empty list without raising. -/
theorem swe_count (l : List α) (w s k : ℤ) (hw : 0 < w) (hs : 0 < s) :
    sliding_window_entropies l w s k = Except.ok
      ((List.range ((l.length + s.toNat - 1) / s.toNat)).map (fun j =>
        (shannon_entropy ((l.drop (j * s.toNat)).take w.toNat),
          markov_entropy ((l.drop (j * s.toNat)).take w.toNat) k))) ∧
    ((List.range ((l.length + s.toNat - 1) / s.toNat)).map (fun j =>
        (shannon_entropy ((l.drop (j * s.toNat)).take w.toNat),
          markov_entropy ((l.drop (j * s.toNat)).take w.toNat) k))).length =
      (l.length + s.toNat - 1) / s.toNat := by
  have hst : 0 < s.toNat := by omega
  have hwt : 0 < w.toNat := by omega
  have hne : ∀ j ∈ List.range ((l.length + s.toNat - 1) / s.toNat),
      (l.drop (j * s.toNat)).take w.toNat ≠ [] := by
    intro j hj
    rw [List.mem_range] at hj
    have hlt := start_lt_of_lt_ceil l.length s.toNat j hst hj
    intro hnil
    have : ((l.drop (j * s.toNat)).take w.toNat).length = 0 := by rw [hnil]; rfl
    rw [List.length_take, List.length_drop] at this
    omega
  constructor
  · rw [swe_ok_eq l w s k hw hs]
    congr 1
    rw [List.filterMap_congr (g := fun j =>
      some (shannon_entropy ((l.drop (j * s.toNat)).take w.toNat),
        markov_entropy ((l.drop (j * s.toNat)).take w.toNat) k))]
    · exact congrFun (List.filterMap_eq_map _) _
    · intro j hj
      rw [if_neg (hne j hj)]
  · rw [List.length_map, List.length_range]

/-- Witness for C10 at a concrete input. -/
theorem swe_count_witness :
    (0 : ℤ) < 3 ∧
      (sliding_window_entropies ([4, 4, 5, 6, 7] : List ℕ) 3 2 1 = Except.ok
        ((List.range ((5 + (2 : ℤ).toNat - 1) / (2 : ℤ).toNat)).map (fun j =>
          (shannon_entropy ((([4, 4, 5, 6, 7] : List ℕ).drop (j * (2 : ℤ).toNat)).take
              (3 : ℤ).toNat),
            markov_entropy ((([4, 4, 5, 6, 7] : List ℕ).drop (j * (2 : ℤ).toNat)).take
              (3 : ℤ).toNat) 1))) ∧
      ((List.range ((5 + (2 : ℤ).toNat - 1) / (2 : ℤ).toNat)).map (fun j =>
          (shannon_entropy ((([4, 4, 5, 6, 7] : List ℕ).drop (j * (2 : ℤ).toNat)).take
              (3 : ℤ).toNat),
            markov_entropy ((([4, 4, 5, 6, 7] : List ℕ).drop (j * (2 : ℤ).toNat)).take
              (3 : ℤ).toNat) 1))).length = (5 + (2 : ℤ).toNat - 1) / (2 : ℤ).toNat) :=
  ⟨by norm_num, swe_count [4, 4, 5, 6, 7] 3 2 1 (by norm_num) (by norm_num)⟩

/-- Claim C5: normalized_lzc returns 0 for the empty sequence, otherwise
min(1, c·log2(n)/n) with c = lempel_ziv_complexity; always in [0, 1]. -/
theorem normalized_lzc_spec (seq : List ℤ) :
    (seq = [] → normalized_lzc seq = 0) ∧
    (seq ≠ [] → normalized_lzc seq =
      min 1 (((lempel_ziv_complexity seq : ℝ) * Real.logb 2 (seq.length : ℝ)) /
        (seq.length : ℝ))) ∧
    0 ≤ normalized_lzc seq ∧ normalized_lzc seq ≤ 1 := by
  unfold normalized_lzc
  refine ⟨fun h => by simp [h], fun h => ?_, ?_, ?_⟩
  · rw [if_neg (by simpa [List.length_eq_zero] using h)]
  · split_ifs with h
    · exact le_refl 0
    · have hn : 1 ≤ seq.length := Nat.one_le_iff_ne_zero.mpr h
      refine le_min zero_le_one (div_nonneg (mul_nonneg (Nat.cast_nonneg _) ?_)
        (Nat.cast_nonneg _))
      exact Real.logb_nonneg one_lt_two (by exact_mod_cast hn)
  · split_ifs with h
    · exact zero_le_one
    · exact min_le_left _ _

/-- Witness for C5 at concrete inputs. -/
theorem normalized_lzc_spec_witness :
    normalized_lzc [] = 0 ∧
      normalized_lzc [1, 0, 1] =
        min 1 (((lempel_ziv_complexity [1, 0, 1] : ℝ) * Real.logb 2 ((3 : ℕ) : ℝ)) /
          ((3 : ℕ) : ℝ)) :=
  ⟨(normalized_lzc_spec []).1 rfl, (normalized_lzc_spec [1, 0, 1]).2.1 (by decide)⟩

/-- log2 of 3 exceeds 32/21 (since 3^21 = 10460353203 > 4294967296 = 2^32). -/
theorem logb_two_three_gt : (32 / 21 : ℝ) < Real.logb 2 3 := by
  rw [Real.lt_logb_iff_rpow_lt one_lt_two (by norm_num)]
  have h21 : ((2 : ℝ) ^ ((32 : ℝ) / 21)) ^ (21 : ℕ) = 2 ^ (32 : ℕ) := by
    rw [← Real.rpow_natCast ((2 : ℝ) ^ ((32 : ℝ) / 21)) 21, ← Real.rpow_mul (by norm_num)]
    rw [show (32 : ℝ) / 21 * (21 : ℕ) = ((32 : ℕ) : ℝ) by push_cast; ring]
    exact Real.rpow_natCast 2 32
  refine lt_of_pow_lt_pow_left₀ 21 (by norm_num) ?_
  rw [h21]
  norm_num

/-- Evaluation of the order-0 entropy of [0,0,1]. -/
theorem shannon_001 : shannon_entropy ([0, 0, 1] : List ℕ) = Real.logb 2 3 - 2 / 3 := by
  unfold shannon_entropy
  rw [if_neg (by simp)]
  rw [show ([0, 0, 1] : List ℕ).toFinset = {0, 1} from by decide]
  rw [Finset.sum_insert (by decide), Finset.sum_singleton]
  norm_num [List.count_cons, List.count_nil]
  rw [Real.logb_div (by norm_num) (by norm_num),
    Real.logb_self_eq_one one_lt_two, one_div, Real.logb_inv]
  ring

/-- Evaluation of the order-0 entropy of [0,0,0,1]. -/
theorem shannon_0001 :
    shannon_entropy ([0, 0, 0, 1] : List ℕ) = 2 - 3 / 4 * Real.logb 2 3 := by
  unfold shannon_entropy
  rw [if_neg (by simp)]
  rw [show ([0, 0, 0, 1] : List ℕ).toFinset = {0, 1} from by decide]
  rw [Finset.sum_insert (by decide), Finset.sum_singleton]
  norm_num [List.count_cons, List.count_nil]
  rw [Real.logb_div (by norm_num) (by norm_num),
    show (4 : ℝ) = 2 ^ (2 : ℕ) from by norm_num,
    Real.logb_pow, Real.logb_self_eq_one one_lt_two,
    one_div, Real.logb_inv, Real.logb_pow, Real.logb_self_eq_one one_lt_two]
  push_cast
  ring

/-- Evaluation of the order-1 Markov entropy of [0,0,0,1]: the only context
is [0], whose successor list is [0,0,1]. -/
theorem markov_0001 :
    markov_entropy ([0, 0, 0, 1] : List ℕ) 1 = shannon_entropy ([0, 0, 1] : List ℕ) := by
  unfold markov_entropy
  rw [if_neg (by norm_num), if_neg (by norm_num)]
  rw [show contextsOf ([0, 0, 0, 1] : List ℕ) (1 : ℤ).toNat = {[0]} from by decide]
  rw [Finset.sum_singleton]
  rw [show succsOf ([0, 0, 0, 1] : List ℕ) (1 : ℤ).toNat [0] = [0, 0, 1] from by decide]
  norm_num

/-- Claim C1 counterexample: for seq = [0,0,0,1] and k = 1 (here len(seq) > k,
so sufficient data exists) markov_entropy exceeds shannon_entropy. -/
theorem markov_gt_shannon_counterexample :
    shannon_entropy ([0, 0, 0, 1] : List ℕ) <
      markov_entropy ([0, 0, 0, 1] : List ℕ) 1 := by
  rw [markov_0001, shannon_001, shannon_0001]
  have h := logb_two_three_gt
  linarith

/-- The suffix seq[k:] enumerated by successor position. -/
theorem drop_eq_map_range (l : List α) (K : ℕ) (hK : K ≤ l.length) :
    l.drop K = (List.range (l.length - K)).map fun i => l.getD (i + K) default := by
  apply List.ext_getElem
  · simp
  · intro i h1 h2
    have hb : i + K < l.length := by
      simp only [List.length_drop] at h1
      omega
    rw [List.getElem_drop, List.getElem_map, List.getElem_range,
      List.getD_eq_getElem _ _ hb]
    congr 1
    omega

/-- Every start index below n - k contributes its context window to
contextsOf. -/
theorem mem_contextsOf (l : List α) (K : ℕ) (i : ℕ) (hi : i < l.length - K) :
    (l.drop i).take K ∈ contextsOf l K := by
  unfold contextsOf
  rw [List.mem_toFinset]
  exact List.mem_map_of_mem _ (List.mem_range.mpr hi)

/-- The occurrence count of a context is the length of its successor list. -/
theorem succsOf_length (l : List α) (K : ℕ) (c : List α) :
    (succsOf l K c).length =
      (List.range (l.length - K)).countP fun i => decide ((l.drop i).take K = c) := by
  unfold succsOf
  rw [List.length_map, List.countP_eq_length_filter]

/-- The count of a symbol inside one successor list, as a countP over start
indices. -/
theorem succsOf_count (l : List α) (K : ℕ) (c : List α) (x : α) :
    (succsOf l K c).count x = (List.range (l.length - K)).countP
      fun i => decide ((l.drop i).take K = c) && decide (l.getD (i + K) default = x) := by
  unfold succsOf
  rw [List.count_eq_countP, List.countP_map, List.countP_filter]
  congr 1
  funext i
  rw [Function.comp, Bool.beq_eq_decide_eq, Bool.and_comm]

/-- Partitioning a countP over the fibers of a classifying function. -/
theorem sum_countP_fiber {ι β : Type} [DecidableEq β] (f : ι → β) (q : ι → Bool) :
    ∀ (M : List ι) (t : Finset β), (∀ i ∈ M, f i ∈ t) →
      (∑ c ∈ t, M.countP fun i => decide (f i = c) && q i) = M.countP q := by
  intro M
  induction M with
  | nil => intro t _; simp
  | cons a M ih =>
    intro t ht
    have hm : ∀ i ∈ M, f i ∈ t := fun i hi => ht i (List.mem_cons_of_mem a hi)
    have hat : f a ∈ t := ht a (List.mem_cons_self a M)
    simp only [List.countP_cons]
    rw [Finset.sum_add_distrib, ih t hm]
    congr 1
    by_cases hqa : q a = true
    · simp only [hqa, Bool.and_true, decide_eq_true_eq, if_true]
      rw [Finset.sum_ite_eq t (f a) fun _ => 1]
      simp [hat]
    · simp only [Bool.not_eq_true] at hqa
      simp [hqa]

/-- The successor lists of the distinct contexts partition the n - k
successor positions. -/
theorem sum_succsOf_length (l : List α) (K : ℕ) :
    (∑ c ∈ contextsOf l K, (succsOf l K c).length) = l.length - K := by
  have h := sum_countP_fiber (fun i => (l.drop i).take K) (fun _ => true)
    (List.range (l.length - K)) (contextsOf l K)
    (fun i hi => mem_contextsOf l K i (List.mem_range.mp hi))
  simp only [Bool.and_true] at h
  simp only [succsOf_length]
  rw [h]
  simp

/-- Per symbol, the successor-list counts over all contexts add up to the
count in the suffix seq[k:]. -/
theorem sum_succsOf_count (l : List α) (K : ℕ) (hK : K ≤ l.length) (x : α) :
    (∑ c ∈ contextsOf l K, (succsOf l K c).count x) = (l.drop K).count x := by
  have h := sum_countP_fiber (fun i => (l.drop i).take K)
    (fun i => decide (l.getD (i + K) default = x))
    (List.range (l.length - K)) (contextsOf l K)
    (fun i hi => mem_contextsOf l K i (List.mem_range.mp hi))
  simp only [succsOf_count]
  rw [h, drop_eq_map_range l K hK, List.count_eq_countP, List.countP_map]
  have hfun : (fun i => decide (l.getD (i + K) default = x)) =
      ((fun y => y == x) ∘ fun i => l.getD (i + K) default) := by
    funext i
    simp [Function.comp, Bool.beq_eq_decide_eq]
  rw [hfun]

/-- Each recorded context has at least one successor. -/
theorem succsOf_length_pos (l : List α) (K : ℕ) (c : List α)
    (hc : c ∈ contextsOf l K) : 0 < (succsOf l K c).length := by
  unfold contextsOf at hc
  rw [List.mem_toFinset, List.mem_map] at hc
  obtain ⟨i, hi, hctx⟩ := hc
  unfold succsOf
  rw [List.length_map]
  refine List.length_pos_of_mem (a := i) ?_
  rw [List.mem_filter]
  exact ⟨hi, by simp [hctx]⟩

/-- Successors live in the suffix seq[k:]. -/
theorem succsOf_subset (l : List α) (K : ℕ) (hK : K ≤ l.length) (c : List α) :
    ∀ x ∈ succsOf l K c, x ∈ l.drop K := by
  intro x hx
  unfold succsOf at hx
  rw [List.mem_map] at hx
  obtain ⟨i, hi, hgx⟩ := hx
  rw [List.mem_filter, List.mem_range] at hi
  rw [drop_eq_map_range l K hK]
  exact hgx ▸ List.mem_map_of_mem _ (List.mem_range.mpr hi.1)

/-- shannon_entropy written through negMulLog: bits are nats divided by
log 2. -/
theorem shannon_entropy_negMulLog (l : List α) :
    shannon_entropy l =
      (∑ x ∈ l.toFinset, Real.negMulLog ((l.count x : ℝ) / (l.length : ℝ))) /
        Real.log 2 := by
  unfold shannon_entropy
  by_cases h : l = []
  · simp [h]
  · rw [if_neg h, Finset.sum_div]
    refine Finset.sum_congr rfl fun x _ => ?_
    rw [Real.negMulLog, ← Real.log_div_log]
    ring

/-- shannon_entropy as a sum over any finite superset of the support:
symbols with zero count contribute negMulLog 0 = 0. -/
theorem shannon_entropy_sum_over (l : List α) (X : Finset α) (hsub : ∀ x ∈ l, x ∈ X) :
    shannon_entropy l =
      (∑ x ∈ X, Real.negMulLog ((l.count x : ℝ) / (l.length : ℝ))) / Real.log 2 := by
  rw [shannon_entropy_negMulLog]
  congr 1
  apply Finset.sum_subset
  · intro x hx
    exact hsub x (List.mem_toFinset.mp hx)
  · intro x _ hnx
    have h0 : l.count x = 0 := by
      rw [List.count_eq_zero]
      exact fun h => hnx (List.mem_toFinset.mpr h)
    simp [h0]

/-- Concavity (finite Jensen) step: the weighted average of the successor-list
entropies is at most the entropy of the pooled suffix. -/
theorem markov_sum_le_shannon_drop (l : List α) (K : ℕ) (h1 : 1 ≤ K)
    (h2 : K < l.length) :
    (∑ c ∈ contextsOf l K,
      ((succsOf l K c).length : ℝ) / ((l.length - K : ℕ) : ℝ) *
        shannon_entropy (succsOf l K c)) ≤ shannon_entropy (l.drop K) := by
  have hKle : K ≤ l.length := le_of_lt h2
  have htpos : 0 < l.length - K := by omega
  have htR : (0 : ℝ) < ((l.length - K : ℕ) : ℝ) := by exact_mod_cast htpos
  have hlog : (0 : ℝ) < Real.log 2 := Real.log_pos one_lt_two
  have hsub : ∀ c ∈ contextsOf l K, ∀ x ∈ succsOf l K c, x ∈ (l.drop K).toFinset :=
    fun c _ x hx => List.mem_toFinset.mpr (succsOf_subset l K hKle c x hx)
  have step1 : ∀ c ∈ contextsOf l K,
      ((succsOf l K c).length : ℝ) / ((l.length - K : ℕ) : ℝ) *
          shannon_entropy (succsOf l K c) =
        ((succsOf l K c).length : ℝ) / ((l.length - K : ℕ) : ℝ) *
          ((∑ x ∈ (l.drop K).toFinset,
            Real.negMulLog (((succsOf l K c).count x : ℝ) /
              ((succsOf l K c).length : ℝ))) / Real.log 2) :=
    fun c hc => by rw [shannon_entropy_sum_over (succsOf l K c) _ (hsub c hc)]
  rw [Finset.sum_congr rfl step1,
    shannon_entropy_sum_over (l.drop K) (l.drop K).toFinset (fun x hx => List.mem_toFinset.mpr hx)]
  simp only [← mul_div_assoc]
  rw [← Finset.sum_div, div_le_div_iff_of_pos_right hlog]
  simp only [Finset.mul_sum]
  rw [Finset.sum_comm]
  apply Finset.sum_le_sum
  intro x _
  have hw0 : ∀ c ∈ contextsOf l K,
      (0 : ℝ) ≤ ((succsOf l K c).length : ℝ) / ((l.length - K : ℕ) : ℝ) :=
    fun c _ => div_nonneg (Nat.cast_nonneg _) (Nat.cast_nonneg _)
  have hw1 : (∑ c ∈ contextsOf l K,
      ((succsOf l K c).length : ℝ) / ((l.length - K : ℕ) : ℝ)) = 1 := by
    rw [← Finset.sum_div, ← Nat.cast_sum, sum_succsOf_length]
    exact div_self htR.ne'
  have hmem : ∀ c ∈ contextsOf l K,
      ((succsOf l K c).count x : ℝ) / ((succsOf l K c).length : ℝ) ∈ Set.Ici (0 : ℝ) :=
    fun c _ => Set.mem_Ici.mpr (div_nonneg (Nat.cast_nonneg _) (Nat.cast_nonneg _))
  have jensen := Real.concaveOn_negMulLog.le_map_sum hw0 hw1 hmem
  simp only [smul_eq_mul] at jensen
  have hmix : (∑ c ∈ contextsOf l K,
      ((succsOf l K c).length : ℝ) / ((l.length - K : ℕ) : ℝ) *
        (((succsOf l K c).count x : ℝ) / ((succsOf l K c).length : ℝ))) =
      (((l.drop K).count x : ℝ) / ((l.length - K : ℕ) : ℝ)) := by
    have hterm : ∀ c ∈ contextsOf l K,
        ((succsOf l K c).length : ℝ) / ((l.length - K : ℕ) : ℝ) *
            (((succsOf l K c).count x : ℝ) / ((succsOf l K c).length : ℝ)) =
          ((succsOf l K c).count x : ℝ) / ((l.length - K : ℕ) : ℝ) := by
      intro c hc
      have hlen : ((succsOf l K c).length : ℝ) ≠ 0 :=
        Nat.cast_ne_zero.mpr (Nat.pos_iff_ne_zero.mp (succsOf_length_pos l K c hc))
      rw [div_mul_div_comm, mul_comm ((l.length - K : ℕ) : ℝ) ((succsOf l K c).length : ℝ)]
      exact mul_div_mul_left _ _ hlen
    rw [Finset.sum_congr rfl hterm, ← Finset.sum_div, ← Nat.cast_sum,
      sum_succsOf_count l K hKle x]
  rw [hmix] at jensen
  have hlendrop : ((l.drop K).length : ℝ) = ((l.length - K : ℕ) : ℝ) := by
    rw [List.length_drop]
  rw [hlendrop]
  exact jensen

/-- Claim C1 (amended): for every sequence and every k ≥ 0 with len(seq) > k,
markov_entropy(seq, k) is at most the Shannon entropy of the successor suffix
seq[k:] (not of seq itself, which the counterexample above refutes). -/
theorem markov_le_shannon_suffix (l : List α) (k : ℤ) (hk : 0 ≤ k)
    (hlen : k.toNat < l.length) :
    markov_entropy l k ≤ shannon_entropy (l.drop k.toNat) := by
  unfold markov_entropy
  by_cases h0 : k ≤ 0
  · rw [if_pos h0]
    have hz : k = 0 := le_antisymm h0 hk
    subst hz
    simp
  · rw [if_neg h0, if_neg (by omega)]
    exact markov_sum_le_shannon_drop l k.toNat (by omega) hlen

/-- Witness for the amended C1 at a concrete input. -/
theorem markov_le_shannon_suffix_witness :
    ((0 : ℤ) ≤ 1 ∧ (1 : ℤ).toNat < 4) ∧
      markov_entropy ([0, 1, 0, 1] : List ℕ) 1 ≤
        shannon_entropy (([0, 1, 0, 1] : List ℕ).drop (1 : ℤ).toNat) :=
  ⟨⟨by decide, by decide⟩, markov_le_shannon_suffix [0, 1, 0, 1] 1 (by decide) (by decide)⟩

end MusicEntropy
